import Mathlib

set_option maxHeartbeats 1600000

/-!
Verification of the commit-range segmentation and changelog engine of
tgit (src/main.rs), as a shallow embedding.  External collaborators
(the git repository, the GitHub commit listing, the interactive prompt)
are abstracted as explicit parameters: the revwalk output is a list of
commit ids, maps are lookup functions or association lists, and the
interactive Select answer is an Option String.
-/

namespace Tgit

/-- Author record from src/main.rs: display name, mail, and public
username (empty when unknown). -/
structure Author where
  name : String
  mail : String
  username : String
deriving DecidableEq, Repr

/-- Author::get_display from src/main.rs: the at-prefixed username when
known, otherwise the plain name. -/
def Author.get_display (a : Author) : String :=
  if a.username.isEmpty then a.name else "@" ++ a.username

/-- Commit record from src/main.rs: one classified conventional commit. -/
structure Commit where
  hash : String
  type_ : String
  scope : String
  description : String
  is_breaking : Bool
  authors : List Author
deriving DecidableEq, Repr

/-- Semantic version as held by the semver crate: numeric triple plus
pre-release and build-metadata strings (empty when absent). -/
structure Version where
  major : Nat
  minor : Nat
  patch : Nat
  pre : String
  build : String
deriving DecidableEq, Repr

/-- A strict SemVer numeric identifier: digits only, no leading zero
unless the identifier is exactly "0". -/
def valid_num (cs : List Char) : Bool :=
  !cs.isEmpty && cs.all Char.isDigit &&
    (match cs with
     | '0' :: rest => rest.isEmpty
     | _ => true)

/-- Characters allowed in SemVer pre-release / build identifiers. -/
def ident_char (c : Char) : Bool :=
  c.isAlpha || c.isDigit || c == '-'

/-- A SemVer pre-release identifier: nonempty alphanumeric/hyphen, and a
purely numeric identifier carries no leading zero. -/
def valid_pre_ident (cs : List Char) : Bool :=
  !cs.isEmpty && cs.all ident_char &&
    (if cs.all Char.isDigit then valid_num cs else true)

/-- A SemVer build-metadata identifier: nonempty alphanumeric/hyphen. -/
def valid_build_ident (cs : List Char) : Bool :=
  !cs.isEmpty && cs.all ident_char

/-- Decimal digits to a natural number. -/
def chars_to_nat (cs : List Char) : Nat :=
  cs.foldl (fun n c => n * 10 + (c.toNat - '0'.toNat)) 0

/-- Split a character list at every occurrence of the separator. -/
def split_on_char (sep : Char) : List Char → List (List Char)
  | [] => [[]]
  | c :: rest =>
    match split_on_char sep rest with
    | [] => if c = sep then [[], []] else [[c]]
    | g :: gs => if c = sep then [] :: g :: gs else (c :: g) :: gs

/-- Split at the first occurrence of the separator: the part before it,
and the part after it when the separator occurs at all. -/
def break_at (sep : Char) : List Char → (List Char × Option (List Char))
  | [] => ([], none)
  | c :: rest =>
    if c = sep then ([], some rest)
    else
      match break_at sep rest with
      | (pre, r) => (c :: pre, r)

/-- semver::Version::parse as used by get_name in src/main.rs:
MAJOR.MINOR.PATCH with optional -PRERELEASE and +BUILD, strict numeric
rules.  none models a parse error. -/
def parse_semver (s : String) : Option Version :=
  let cs := s.toList
  let vpb := break_at '+' cs
  let vp := break_at '-' vpb.1
  match split_on_char '.' vp.1 with
  | [ma, mi, pa] =>
    if valid_num ma && valid_num mi && valid_num pa then
      let preOk := match vp.2 with
        | none => true
        | some p => (split_on_char '.' p).all valid_pre_ident
      let buildOk := match vpb.2 with
        | none => true
        | some b => (split_on_char '.' b).all valid_build_ident
      if preOk && buildOk then
        some ⟨chars_to_nat ma, chars_to_nat mi, chars_to_nat pa,
              String.mk ((vp.2).getD []), String.mk ((vpb.2).getD [])⟩
      else none
    else none
  | _ => none

/-- Display of a semver Version: numeric triple, then -pre and +build
when nonempty. -/
def version_to_string (v : Version) : String :=
  toString v.major ++ "." ++ toString v.minor ++ "." ++ toString v.patch
    ++ (if v.pre.isEmpty then "" else "-" ++ v.pre)
    ++ (if v.build.isEmpty then "" else "+" ++ v.build)

/-- Match a literal character sequence at the front, returning the
remainder. -/
def strip_chars : List Char → List Char → Option (List Char)
  | [], s => some s
  | _ :: _, [] => none
  | c :: cs, d :: ds => if c = d then strip_chars cs ds else none

/-- str::strip_prefix from Rust: drop the given leading string when it
is a prefix, otherwise none. -/
def strip_pref (p s : String) : Option String :=
  match strip_chars p.toList s.toList with
  | some rest => some (String.mk rest)
  | none => none

/-- str::starts_with from Rust on string patterns. -/
def str_starts_with (s p : String) : Bool :=
  (strip_chars p.toList s.toList).isSome

/-- The tag filter regex of list_tags (src/main.rs): full SemVer with an
optional "v" or "ver" prefix, anchored at both ends. -/
def is_semver_tag (s : String) : Bool :=
  (parse_semver s).isSome
  || (match strip_pref "v" s with
      | some r => (parse_semver r).isSome
      | none => false)
  || (match strip_pref "ver" s with
      | some r => (parse_semver r).isSome
      | none => false)

/-- list_tags from src/main.rs: keep the tag names matching the semver
regex and reverse the listing order. -/
def list_tags (tag_names : List String) : List String :=
  (tag_names.filter is_semver_tag).reverse

/-- Insertion into a string map modelled as a lookup function
(HashMap::insert overwrites). -/
def insertMap (m : String → Option String) (k v : String) :
    String → Option String :=
  fun x => if x = k then some v else m x

/-- get_commit_tag_map from src/main.rs: fold the retained tags into the
commit-to-tag and tag-to-commit maps, skipping tags that do not resolve;
a later tag overwrites an earlier one pointing at the same commit. -/
def get_commit_tag_map (tags : List String)
    (tag_to_commit : String → Option String) :
    (String → Option String) × (String → Option String) :=
  tags.foldl
    (fun maps tag =>
      match tag_to_commit tag with
      | none => maps
      | some cid => (insertMap maps.1 cid tag, insertMap maps.2 tag cid))
    (fun _ => none, fun _ => none)

/-- get_range from src/main.rs.  walk is the revwalk output for the
range from..to (from exclusive, to inclusive, newest first), c2t the
commit-to-tag map.  The from commit is pushed first when it carries no
tag, then every walked commit carrying a tag, then the to commit when it
carries no tag. -/
def get_range (from_id to_id : String) (walk : List String)
    (c2t : String → Option String) : Except String (List String) :=
  if from_id = to_id then Except.error "No commits between from and to."
  else
    let commits : List String :=
      if (c2t from_id).isSome then [] else [from_id]
    let commits := commits ++ walk.filter (fun id => (c2t id).isSome)
    let commits := if c2t to_id = none then commits ++ [to_id] else commits
    Except.ok commits

/-- The major candidate of get_name (src/main.rs): clear pre-release,
increment major, reset minor and patch.  Build metadata is untouched. -/
def bump_major (v : Version) : Version :=
  let v := { v with pre := "" }
  let v := { v with major := v.major + 1 }
  let v := { v with minor := 0 }
  { v with patch := 0 }

/-- The minor candidate of get_name: clear pre-release, increment minor,
reset patch.  Build metadata is untouched. -/
def bump_minor (v : Version) : Version :=
  let v := { v with pre := "" }
  let v := { v with minor := v.minor + 1 }
  { v with patch := 0 }

/-- The patch candidate of get_name: clear pre-release, increment patch.
Build metadata is untouched. -/
def bump_patch (v : Version) : Version :=
  let v := { v with pre := "" }
  { v with patch := v.patch + 1 }

/-- The 7-character truncation of a commit id used by get_name and the
renderer (chars().take(7)). -/
def take7 (s : String) : String :=
  String.mk (s.toList.take 7)

/-- The from-version computation inside get_name (src/main.rs): when the
from boundary has a tag name, strip the configured version prefix and
parse as semver — both unwraps panic on failure, modelled as none;
otherwise the version is 0.0.0. -/
def get_from_version (from_name from_id_7 pref : String) : Option Version :=
  if from_name ≠ from_id_7 then
    match strip_pref pref from_name with
    | none => none
    | some stripped => parse_semver stripped
  else some ⟨0, 0, 0, "", ""⟩

/-- get_name from src/main.rs.  ans is the interactive Select answer
(none when the prompt is unavailable or fails, in which case the default
bump type string is used, exactly as the Err arm does).  A none result
models the panic of the strip_prefix / parse unwraps. -/
def get_name (from_id to_id pref : String) (has_breaking : Bool)
    (commit_map : String → Option (List Commit))
    (c2t : String → Option String) (ans : Option String) :
    Option (String × String) :=
  let from_tag := c2t from_id
  let to_tag := c2t to_id
  let from_id_7 := take7 from_id
  let to_id_7 := take7 to_id
  let from_name := from_tag.getD from_id_7
  let to_name := to_tag.getD to_id_7
  if to_name ≠ to_id_7 then some (from_name, to_name)
  else
    match get_from_version from_name from_id_7 pref with
    | none => none
    | some from_version =>
      let to_version := from_version
      let default_bump_type : String :=
        if has_breaking then "major"
        else if (commit_map "feat").isSome then "minor"
        else "patch"
      let to_major_version := bump_major to_version
      let to_minor_version := bump_minor to_version
      let to_patch_version := bump_patch to_version
      let picked := match ans with
        | some a => a
        | none => default_bump_type
      let to_version :=
        if str_starts_with picked "major" then to_major_version
        else if str_starts_with picked "minor" then to_minor_version
        else if str_starts_with picked "patch" then to_patch_version
        else to_version
      some (from_name, pref ++ version_to_string to_version)

/-- One piece of the attribution loop of get_changelog_string
(src/main.rs): "by " is pushed at index 0, a single author is shown
bare, the last author gets "and ", the second-to-last a trailing space,
every other author a trailing comma. -/
def by_piece (len i : Nat) (d : String) : String :=
  (if i = 0 then "by " else "") ++
    (if len = 1 then d
     else if i = len - 1 then "and " ++ d
     else if i = len - 2 then d ++ " "
     else d ++ ", ")

/-- The attribution loop of get_changelog_string as an accumulator
recursion over the author list, tracking the running index. -/
def build_by_go : List Author → Nat → Nat → String → String
  | [], _, _, acc => acc
  | a :: rest, len, i, acc =>
    build_by_go rest len (i + 1) (acc ++ by_piece len i a.get_display)

/-- The attribution clause of a rendered commit line (src/main.rs,
get_changelog_string): built from the commit's author list in order. -/
def build_by (authors : List Author) : String :=
  build_by_go authors authors.length 0 ""

/-- The regex #\d+ of get_changelog_string: true when some '#' is
immediately followed by a digit. -/
def has_issue_ref : List Char → Bool
  | [] => false
  | '#' :: c :: rest => c.isDigit || has_issue_ref (c :: rest)
  | _ :: rest => has_issue_ref rest

/-- One rendered commit line of get_changelog_string (src/main.rs):
optional bold scope, description, hash (linked when a base url exists,
dropped when the description holds an issue reference), and the
attribution clause. -/
def commit_line (baseurl : String) (c : Commit) : String :=
  let by_str := build_by c.authors
  let hash := take7 c.hash
  let hash :=
    if !baseurl.isEmpty then
      " ([" ++ hash ++ "](" ++ baseurl ++ "/" ++ c.hash ++ "))"
    else hash
  let hash := if has_issue_ref c.description.toList then "" else hash
  if c.scope.isEmpty then
    "- " ++ c.description ++ hash ++ " - " ++ by_str ++ "\n"
  else
    "- **" ++ c.scope ++ "** " ++ c.description ++ hash ++ " - " ++ by_str ++ "\n"

/-- The types vector of get_changelog_string: the bucket consulted by
each section index (index 0, Breaking Changes, reads the feat bucket). -/
def changelog_types : List String :=
  ["feat", "feat", "fix", "docs", "style", "refactor", "perf", "test",
   "build", "ci", "chore", "revert", "other"]

/-- The name_map vector of get_changelog_string: section headings. -/
def changelog_names : List String :=
  [":sparkles: Breaking Changes", ":sparkles: Features", ":bug: Bug Fixes",
   ":memo: Documentation", ":art: Styles", ":recycle: Code Refactoring",
   ":zap: Performance Improvements", ":rotating_light: Tests",
   ":hammer: Build", ":green_heart: Continuous Integration",
   ":wrench: Chores", ":rewind: Reverts", ":package: Others"]

/-- The per-commit skip of the section loop: index 0 keeps only breaking
commits, index 1 only non-breaking ones. -/
def skip_commit (i : Nat) (c : Commit) : Bool :=
  (i == 0 && !c.is_breaking) || (i == 1 && c.is_breaking)

/-- The commit lines of one section, in bucket order, skipping the
commits filtered out at indices 0 and 1. -/
def section_lines (baseurl : String) (i : Nat) (commits : List Commit) :
    String :=
  commits.foldl
    (fun acc c => if skip_commit i c then acc else acc ++ commit_line baseurl c)
    ""

/-- One iteration of the section loop of get_changelog_string: empty
when the bucket is missing or empty, when index 0 has no breaking
commit, or when index 1 has no non-breaking commit; otherwise the
heading plus the section's commit lines. -/
def section_block (baseurl : String)
    (commit_map : String → Option (List Commit)) (i : Nat) : String :=
  match commit_map (changelog_types.getD i "") with
  | none => ""
  | some commits =>
    if commits.isEmpty then ""
    else if i = 0 ∧ commits.countP (fun c => c.is_breaking) = 0 then ""
    else if i = 1 ∧ commits.countP (fun c => !c.is_breaking) = 0 then ""
    else "\n### " ++ changelog_names.getD i "" ++ "\n\n"
      ++ section_lines baseurl i commits

/-- The heading and optional compare link of get_changelog_string. -/
def changelog_header (baseurl from_name to_name : String) : String :=
  let s := "## " ++ to_name ++ "\n\n"
  let compare_url := "/compare/" ++ from_name ++ "..." ++ to_name
  let url := baseurl ++ compare_url
  if !baseurl.isEmpty then s ++ "[compare changes](" ++ url ++ ")\n" else s

/-- The trailing Contributors section of get_changelog_string: header
plus a line per contributor, mail shown when no username is known. -/
def contributors_block (contributors : List (String × Author)) : String :=
  contributors.foldl
    (fun acc p =>
      if p.2.username.isEmpty then
        acc ++ "- " ++ p.2.name ++ " <" ++ p.2.mail ++ ">\n"
      else
        acc ++ "- " ++ p.2.name ++ " (@" ++ p.2.username ++ ")\n")
    "\n### :busts_in_silhouette: Contributors\n\n"

/-- get_changelog_string from src/main.rs.  The commit map is the bucket
lookup; the contributors are given in their iteration order. -/
def get_changelog_string (baseurl from_name to_name : String)
    (commit_map : String → Option (List Commit))
    (contributors : List (String × Author)) : String :=
  ((List.range changelog_types.length).foldl
    (fun acc i => acc ++ section_block baseurl commit_map i)
    (changelog_header baseurl from_name to_name))
  ++ contributors_block contributors

/-- Try the candidates in order and return the first success: the
preference order of a backtracking (leftmost-first) regex engine. -/
def firstSome {α β : Type} : List α → (α → Option β) → Option β
  | [], _ => none
  | a :: rest, f =>
    match f a with
    | some b => some b
    | none => firstSome rest f

/-- The candidate consumptions of a greedy .+ (one or more non-newline
characters), longest first. -/
def dot_plus_splits (s : List Char) : List (List Char × List Char) :=
  let run := s.takeWhile (fun c => c ≠ '\n')
  (List.range run.length).map (fun k =>
    let len := run.length - k
    (s.take len, s.drop len))

/-- First character of the literal group alternative of the emoji
regex. -/
def emoji_a : Char := Char.ofNat 0x1F300

/-- Last character of the first literal group alternative. -/
def emoji_b : Char := Char.ofNat 0x1F3FF

/-- First character of the second literal group alternative. -/
def emoji_c : Char := Char.ofNat 0x1F400

/-- Last character of the second literal group alternative. -/
def emoji_d : Char := Char.ofNat 0x1F64F

/-- Candidates of the optional emoji group of the first-line regex of
parse_first_line, in alternation-preference order: a colon-delimited
name, the two literal three-character groups, the single-character
class, and finally the empty (skipped) option. -/
def emoji_cands (s : List Char) : List (String × List Char) :=
  (match s with
   | ':' :: t =>
     (dot_plus_splits t).filterMap (fun pr =>
       match pr.2 with
       | ':' :: r => some (String.mk (':' :: (pr.1 ++ [':'])), r)
       | _ => none)
   | _ => []) ++
  (match s with
   | c1 :: c2 :: c3 :: r =>
     if c1 = emoji_a ∧ c2 = '-' ∧ c3 = emoji_b then
       [(String.mk [c1, c2, c3], r)]
     else []
   | _ => []) ++
  (match s with
   | c1 :: c2 :: c3 :: r =>
     if c1 = emoji_c ∧ c2 = '-' ∧ c3 = emoji_d then
       [(String.mk [c1, c2, c3], r)]
     else []
   | _ => []) ++
  (match s with
   | c :: r =>
     if 0x2600 ≤ c.toNat ∧ c.toNat ≤ 0x2B55 then [(String.mk [c], r)]
     else []
   | _ => []) ++
  [("", s)]

/-- Candidates of the optional greedy space group, most spaces first. -/
def space_cands (s : List Char) : List (List Char) :=
  let run := s.takeWhile (fun c => c = ' ')
  (List.range (run.length + 1)).map (fun k => s.drop (run.length - k))

/-- Candidates of the greedy lowercase type token, longest first. -/
def type_cands (s : List Char) : List (String × List Char) :=
  let run := s.takeWhile (fun c => 'a' ≤ c ∧ c ≤ 'z')
  (List.range run.length).map (fun k =>
    let len := run.length - k
    (String.mk (s.take len), s.drop len))

/-- Candidates of the optional parenthesised greedy scope, longest
first, then the skipped option. -/
def scope_cands (s : List Char) : List (String × List Char) :=
  (match s with
   | '(' :: t =>
     (dot_plus_splits t).filterMap (fun pr =>
       match pr.2 with
       | ')' :: r => some (String.mk pr.1, r)
       | _ => none)
   | _ => []) ++ [("", s)]

/-- Candidates of the optional breaking bang, present first. -/
def bang_cands (s : List Char) : List (String × List Char) :=
  (match s with
   | '!' :: r => [("!", r)]
   | _ => []) ++ [("", s)]

/-- Match the first-line regex of parse_first_line at the start of the
given suffix, with backtracking in preference order; yields (emoji,
scope, description, type, is_breaking). -/
def match_first_line_at (s : List Char) :
    Option (String × String × String × String × Bool) :=
  firstSome (emoji_cands s) (fun em =>
    firstSome (space_cands em.2) (fun s2 =>
      firstSome (type_cands s2) (fun ty =>
        firstSome (scope_cands ty.2) (fun sc =>
          firstSome (bang_cands sc.2) (fun bg =>
            match bg.2 with
            | ':' :: ' ' :: rest =>
              let desc := rest.takeWhile (fun c => c ≠ '\n')
              if desc.isEmpty then none
              else some (em.1, sc.1, String.mk desc, ty.1, bg.1 == "!")
            | _ => none)))))

/-- Unanchored search: the regex matches at the leftmost position where
a match starts (Regex::captures semantics). -/
def search_first_line : List Char →
    Option (String × String × String × String × Bool)
  | [] => match_first_line_at []
  | c :: t =>
    match match_first_line_at (c :: t) with
    | some r => some r
    | none => search_first_line t

/-- parse_first_line from src/main.rs: the conventional-commit regex
searched (unanchored, leftmost-first) over the subject; none when the
subject has no match, otherwise (emoji, scope, description, type,
is_breaking). -/
def parse_first_line (message : String) :
    Option (String × String × String × String × Bool) :=
  search_first_line message.toList

/-- The literal head of the Co-authored-by regex. -/
def coauthor_lit : List Char := "Co-authored-by: ".toList

/-- Match the Co-authored-by regex of parse_author_from_line at the
start of the given suffix: the literal, a greedy name, " <", a greedy
mail, ">". -/
def match_coauthor_at (s : List Char) : Option Author :=
  match strip_chars coauthor_lit s with
  | none => none
  | some rest =>
    firstSome (dot_plus_splits rest) (fun nm =>
      match nm.2 with
      | ' ' :: '<' :: r2 =>
        firstSome (dot_plus_splits r2) (fun ml =>
          match ml.2 with
          | '>' :: _ => some ⟨String.mk nm.1, String.mk ml.1, ""⟩
          | _ => none)
      | _ => none)

/-- Unanchored search for the Co-authored-by pattern in one line. -/
def search_coauthor : List Char → Option Author
  | [] => match_coauthor_at []
  | c :: t =>
    match match_coauthor_at (c :: t) with
    | some r => some r
    | none => search_coauthor t

/-- parse_author_from_line from src/main.rs. -/
def parse_author_from_line (line : String) : Option Author :=
  search_coauthor line.toList

/-- Split a character list at every newline. -/
def split_newline : List Char → List (List Char)
  | [] => [[]]
  | c :: rest =>
    match split_newline rest with
    | [] => [[]]
    | g :: gs => if c = '\n' then [] :: g :: gs else (c :: g) :: gs

/-- Strip one trailing carriage return, as str::lines does per line. -/
def strip_cr (l : List Char) : List Char :=
  if l.getLast? = some '\r' then l.dropLast else l

/-- str::lines from Rust: newline-separated lines, no trailing empty
line, carriage returns stripped. -/
def rust_lines (s : String) : List (List Char) :=
  if s.isEmpty then []
  else
    let raw := split_newline s.toList
    let raw := if s.toList.getLast? = some '\n' then raw.dropLast else raw
    raw.map strip_cr

/-- The subject line: message.lines().next() as used on the GitHub
message (src/main.rs).  The source unwraps and would panic on an empty
message; here the empty message yields the empty subject, which never
matches the classification regex. -/
def first_line (s : String) : String :=
  match rust_lines s with
  | [] => ""
  | l :: _ => String.mk l

/-- parse_author_from_body from src/main.rs: every line matching the
Co-authored-by pattern contributes one author, in order. -/
def parse_author_from_body (body : String) : List Author :=
  (rust_lines body).filterMap (fun l => search_coauthor l)

/-- A raw commit of the GitHub listing consumed by the tgit loop
(src/main.rs): sha, author and committer identities, and the message. -/
structure GhCommit where
  sha : String
  author_name : String
  author_mail : String
  author_login : String
  committer_mail : String
  committer_login : String
  message : String
deriving DecidableEq, Repr

/-- The mutable per-segment state of the GitHub loop: the breaking flag
and the type buckets (HashMap modelled as an association list in
insertion order). -/
structure UnitState where
  has_breaking : Bool
  commit_map : List (String × List Commit)
deriving DecidableEq, Repr

/-- commit_map.entry(type).or_insert(Vec::new()).push(commit) from
src/main.rs: append to the type's bucket, creating it when absent. -/
def bucket_insert : List (String × List Commit) → String → Commit →
    List (String × List Commit)
  | [], ty, c => [(ty, [c])]
  | p :: rest, ty, c =>
    if p.1 = ty then (p.1, p.2 ++ [c]) :: rest
    else p :: bucket_insert rest ty c

/-- The two mail_to_login inserts done for every raw commit
(src/main.rs lines 259-274): committer first, then author; insert
overwrites. -/
def record_mails (mtl : String → Option String) (rc : GhCommit) :
    String → Option String :=
  insertMap (insertMap mtl rc.committer_mail rc.committer_login)
    rc.author_mail rc.author_login

/-- One iteration of the GitHub commit loop of tgit (src/main.rs lines
256-307): record the committer and author logins, build the author
list, classify the subject; an unclassifiable commit leaves the unit
untouched (continue), a classified one is bucketed and may set the
breaking flag. -/
def process_gh_commit (st : (String → Option String) × UnitState)
    (rc : GhCommit) : (String → Option String) × UnitState :=
  let mtl := record_mails st.1 rc
  let authors := Author.mk rc.author_name rc.author_mail rc.author_login ::
    parse_author_from_body rc.message
  match parse_first_line (first_line rc.message) with
  | none => (mtl, st.2)
  | some (_, scope, description, ty, is_breaking) =>
    let c : Commit := ⟨rc.sha, ty, scope, description, is_breaking, authors⟩
    (mtl, ⟨st.2.has_breaking || c.is_breaking,
           bucket_insert st.2.commit_map ty c⟩)

/-- The GitHub commit loop folded over a segment's raw commits. -/
def process_gh_commits (rcs : List GhCommit)
    (st : (String → Option String) × UnitState) :
    (String → Option String) × UnitState :=
  rcs.foldl process_gh_commit st

/-- The mail_to_login inserts folded over a list of raw commits. -/
def record_logins (mtl : String → Option String) (rcs : List GhCommit) :
    String → Option String :=
  rcs.foldl record_mails mtl

/-- One contributor insertion of push_changelog_unit (src/main.rs):
skip a mail already present, otherwise append the author with the
username looked up in mail_to_login (empty when absent). -/
def insert_author (mtl : String → Option String)
    (contributors : List (String × Author)) (a : Author) :
    List (String × Author) :=
  if contributors.any (fun p => p.1 = a.mail) then contributors
  else contributors ++ [(a.mail, ⟨a.name, a.mail, (mtl a.mail).getD ""⟩)]

/-- The contributor merge of push_changelog_unit (src/main.rs lines
459-483): every author of every bucketed commit is inserted once, keyed
by mail. -/
def push_contributors (commit_map : List (String × List Commit))
    (mtl : String → Option String)
    (contributors : List (String × Author)) : List (String × Author) :=
  commit_map.foldl
    (fun contr p =>
      p.2.foldl
        (fun contr c => c.authors.foldl (insert_author mtl) contr)
        contr)
    contributors

/-- Total number of bucketed commit records across a commit map. -/
def total_commits (m : List (String × List Commit)) : Nat :=
  (m.map (fun p => p.2.length)).sum

/-- Join of two or more display strings where the final pair is joined
by " and " and every earlier element carries ", ": it yields
"X and Y", "X, Y and Z", "X, Y, Z and W", with no comma before the
"and". -/
def and_join : List String → String
  | [] => ""
  | [d] => "and " ++ d
  | [d1, d2] => d1 ++ " and " ++ d2
  | d :: rest => d ++ ", " ++ and_join rest

/-- The attribution format actually produced by the renderer: empty for
no author, "by X" for one, and "by " followed by the and_join of the
displays otherwise ("by X and Y", "by X, Y and Z", ...). -/
def by_format : List String → String
  | [] => ""
  | [d] => "by " ++ d
  | ds => "by " ++ and_join ds

/-- Closed form of the attribution pieces at positions one and later:
the last display is prefixed with "and ", the second-to-last carries a
trailing space, earlier ones a trailing comma. -/
def tail_fmt : List String → String
  | [] => ""
  | [d] => "and " ++ d
  | [d1, d2] => (d1 ++ " ") ++ ("and " ++ d2)
  | d :: rest => (d ++ ", ") ++ tail_fmt rest

/-- The commits of a section that qualify for emission: index 0 keeps
the breaking commits of the feat bucket, index 1 the non-breaking ones,
any other index its whole bucket. -/
def qualifying_commits (commit_map : String → Option (List Commit))
    (i : Nat) : List Commit :=
  let bucket := (commit_map (changelog_types.getD i "")).getD []
  if i = 0 then bucket.filter (fun c => c.is_breaking)
  else if i = 1 then bucket.filter (fun c => !c.is_breaking)
  else bucket

/-- Substring test on character lists, used to inspect rendered
output. -/
def substr_in (pat : List Char) : List Char → Bool
  | [] => (strip_chars pat []).isSome
  | c :: t => (strip_chars pat (c :: t)).isSome || substr_in pat t

/-! Helper lemmas shared by the claim theorems. -/

theorem str_append_assoc (a b c : String) : a ++ b ++ c = a ++ (b ++ c) := by
  apply String.ext
  simp only [String.data_append, List.append_assoc]

theorem str_append_empty (a : String) : a ++ "" = a := by
  apply String.ext
  rw [String.data_append]
  exact List.append_nil _

theorem str_empty_append (a : String) : "" ++ a = a := by
  apply String.ext
  rw [String.data_append]
  exact List.nil_append _

theorem str_left_ne_empty (a b : String) (h : a.data ≠ []) : a ++ b ≠ "" := by
  intro hc
  have hd := congrArg String.data hc
  rw [String.data_append] at hd
  rcases List.append_eq_nil.mp hd with ⟨h1, _⟩
  exact h h1

/-- A plain append fold from any initial string factors the initial
string out. -/
theorem foldl_append_init (l : List String) :
    ∀ init, l.foldl (fun r s => r ++ s) init
      = init ++ l.foldl (fun r s => r ++ s) "" := by
  induction l with
  | nil =>
    intro init
    exact (str_append_empty init).symm
  | cons a rest ih =>
    intro init
    simp only [List.foldl_cons]
    rw [ih (init ++ a), ih ("" ++ a), str_empty_append, str_append_assoc]

/-- String.join distributes over cons. -/
theorem str_join_cons (s : String) (l : List String) :
    String.join (s :: l) = s ++ String.join l := by
  show List.foldl (fun r t => r ++ t) "" (s :: l)
    = s ++ List.foldl (fun r t => r ++ t) "" l
  simp only [List.foldl_cons]
  rw [foldl_append_init l ("" ++ s), str_empty_append]

/-- Appending via a left fold equals the initial string followed by the
join of the mapped elements. -/
theorem foldl_append_join {α : Type} (f : α → String) :
    ∀ (l : List α) (init : String),
      l.foldl (fun acc a => acc ++ f a) init
        = init ++ String.join (l.map f) := by
  intro l
  induction l with
  | nil =>
    intro init
    exact (str_append_empty init).symm
  | cons a rest ih =>
    intro init
    simp only [List.foldl_cons, List.map_cons]
    rw [ih (init ++ f a), str_join_cons, str_append_assoc]

/-- A conditional-append left fold equals the join over the kept
elements. -/
theorem foldl_cond_append_join {α : Type} (f : α → String) (p : α → Bool) :
    ∀ (l : List α) (init : String),
      l.foldl (fun acc a => if p a then acc else acc ++ f a) init
        = init ++ String.join ((l.filter (fun a => !p a)).map f) := by
  intro l
  induction l with
  | nil =>
    intro init
    exact (str_append_empty init).symm
  | cons a rest ih =>
    intro init
    simp only [List.foldl_cons]
    cases hp : p a with
    | true =>
      rw [if_pos rfl, ih init]
      have hfil : (a :: rest).filter (fun x => !p x)
          = rest.filter (fun x => !p x) := by
        simp [List.filter_cons, hp]
      rw [hfil]
    | false =>
      rw [if_neg (by decide), ih (init ++ f a)]
      have hfil : (a :: rest).filter (fun x => !p x)
          = a :: rest.filter (fun x => !p x) := by
        simp [List.filter_cons, hp]
      rw [hfil, List.map_cons, str_join_cons, str_append_assoc]

/-! Claim theorems. -/

/-- C1 counterexample: with both endpoints untagged and an empty walk,
get_range returns the list [from, to]; its first element is the resolved
from commit, not the resolved to commit as the claim states. -/
theorem c1_counterexample :
    get_range "a" "b" [] (fun _ => none) = Except.ok ["a", "b"]
    ∧ (["a", "b"] : List String).head? ≠ some "b"
    ∧ (["a", "b"] : List String).getLast? ≠ some "a" :=
  ⟨rfl, by decide, by decide⟩

/-- The untagged-endpoint shape of a resolved range: from first, the
tagged walked commits, then to. -/
theorem get_range_untagged (f t : String) (walk : List String)
    (c2t : String → Option String) (hft : f ≠ t)
    (hf : c2t f = none) (ht : c2t t = none) :
    get_range f t walk c2t
      = Except.ok (f :: (walk.filter (fun id => (c2t id).isSome) ++ [t])) := by
  unfold get_range
  rw [if_neg hft, hf, ht]
  simp

/-- C1 (amended): for a resolved range whose endpoints carry no tag, the
boundary list is ordered [from, ...each tagged commit encountered during
the walk in traversal order..., to]: its first element is the resolved
from commit and its last element is the resolved to commit, so
consecutive pairs (boundary[i], boundary[i+1]) define the segments. -/
theorem c1_boundary_order (f t : String) (walk : List String)
    (c2t : String → Option String) (hft : f ≠ t)
    (hf : c2t f = none) (ht : c2t t = none) :
    get_range f t walk c2t
      = Except.ok (f :: (walk.filter (fun id => (c2t id).isSome) ++ [t]))
    ∧ (f :: (walk.filter (fun id => (c2t id).isSome) ++ [t])).head? = some f
    ∧ (f :: (walk.filter (fun id => (c2t id).isSome) ++ [t])).getLast?
        = some t := by
  refine ⟨get_range_untagged f t walk c2t hft hf ht, rfl, ?_⟩
  rw [show f :: (walk.filter (fun id => (c2t id).isSome) ++ [t])
      = (f :: walk.filter (fun id => (c2t id).isSome)) ++ [t] from rfl]
  exact List.getLast?_concat _

/-- Witness for C1: a concrete range with one internal tagged commit. -/
theorem c1_boundary_order_witness :
    get_range "a" "b" ["b", "c"]
        (fun x => if x = "c" then some "1.0.0" else none)
      = Except.ok ("a" :: (["b", "c"].filter
          (fun id => ((fun x => if x = "c" then some "1.0.0" else none) id).isSome)
          ++ ["b"])) :=
  (c1_boundary_order "a" "b" ["b", "c"]
    (fun x => if x = "c" then some "1.0.0" else none)
    (by decide) rfl rfl).1

/-- C2 counterexample: when the resolved from commit carries a tag (the
usual case: from defaults to the most recent tag), get_range omits it,
and with no intermediate tags the result is the one-element list [to] —
fewer than the two entries the claim requires, and not [to, from]. -/
theorem c2_counterexample :
    get_range "a" "b" [] (fun x => if x = "a" then some "1.0.0" else none)
      = Except.ok ["b"]
    ∧ ¬ 2 ≤ (["b"] : List String).length :=
  ⟨rfl, by decide⟩

/-- C2 (amended): when the resolved from and to commits both carry no
tag, the boundary list has at least two entries, and with no
intermediate tagged commits it is exactly the two-element list
[from, to]; a tagged from commit is omitted from the list. -/
theorem c2_boundary_count (f t : String) (walk : List String)
    (c2t : String → Option String) (hft : f ≠ t)
    (hf : c2t f = none) (ht : c2t t = none) :
    (∃ l, get_range f t walk c2t = Except.ok l ∧ 2 ≤ l.length)
    ∧ (walk.filter (fun id => (c2t id).isSome) = [] →
        get_range f t walk c2t = Except.ok [f, t]) := by
  have hr := get_range_untagged f t walk c2t hft hf ht
  constructor
  · refine ⟨_, hr, ?_⟩
    simp only [List.length_cons, List.length_append, List.length_singleton]
    omega
  · intro hw
    rw [hr, hw]
    rfl

/-- Witness for C2: a concrete untagged range with an empty walk. -/
theorem c2_boundary_count_witness :
    get_range "a" "b" [] (fun _ => none) = Except.ok ["a", "b"] :=
  (c2_boundary_count "a" "b" [] (fun _ => none) (by decide) rfl rfl).2 rfl

/-- C7 (confirmed): get_range fails with the "no commits in range" error
exactly when the resolved from and to are the same commit; an error
result carries no boundary list. -/
theorem c7_empty_range (f t : String) (walk : List String)
    (c2t : String → Option String) :
    get_range f t walk c2t = Except.error "No commits between from and to."
      ↔ f = t := by
  constructor
  · intro h
    by_contra hne
    unfold get_range at h
    rw [if_neg hne] at h
    split at h <;> exact Except.noConfusion h
  · intro h
    unfold get_range
    rw [if_pos h]

/-- C5 counterexample: a from tag carrying build metadata flows
unchanged through the bump: the computed name keeps +5 even though the
claim requires build metadata to be cleared. -/
theorem c5_counterexample :
    get_name "aaaaaaa1" "bbbbbbb2" "v" true (fun _ => none)
        (fun x => if x = "aaaaaaa1" then some "v1.0.0+5" else none) none
      = some ("v1.0.0+5", "v2.0.0+5")
    ∧ ("v2.0.0+5" : String) ≠ "v2.0.0" :=
  ⟨by decide, by decide⟩

/-- C5 (amended): each bump candidate clears the pre-release component
but keeps build metadata: major increments major and resets minor and
patch, minor increments minor and resets patch, patch increments patch
only; the build component is unchanged in all three. -/
theorem c5_bump_components (v : Version) :
    bump_major v = ⟨v.major + 1, 0, 0, "", v.build⟩
    ∧ bump_minor v = ⟨v.major, v.minor + 1, 0, "", v.build⟩
    ∧ bump_patch v = ⟨v.major, v.minor, v.patch + 1, "", v.build⟩ := by
  refine ⟨?_, ?_, ?_⟩ <;> (cases v; rfl)

/-- C4 (confirmed): for a segment whose newer boundary is not a known
tag, get_name picks the default candidate by priority — breaking flag
gives major, else a feat bucket gives minor, else patch — and absent an
interactive answer the output name is the prefix followed by that
candidate. -/
theorem c4_default_bump (from_id to_id pref : String) (hb : Bool)
    (cmap : String → Option (List Commit)) (c2t : String → Option String)
    (v : Version)
    (ht : c2t to_id = none)
    (hv : get_from_version ((c2t from_id).getD (take7 from_id))
            (take7 from_id) pref = some v) :
    get_name from_id to_id pref hb cmap c2t none
      = some ((c2t from_id).getD (take7 from_id),
          pref ++ version_to_string
            (if hb then bump_major v
             else if (cmap "feat").isSome then bump_minor v
             else bump_patch v)) := by
  unfold get_name
  rw [ht]
  simp only [Option.getD_none, ne_eq, not_true_eq_false, if_false, hv]
  cases hb with
  | true => rfl
  | false =>
    cases hfeat : cmap "feat" with
    | none =>
      have h1 : str_starts_with "patch" "major" = false := by decide
      have h2 : str_starts_with "patch" "minor" = false := by decide
      have h3 : str_starts_with "patch" "patch" = true := by decide
      simp [h1, h2, h3]
    | some cs =>
      have h1 : str_starts_with "minor" "major" = false := by decide
      have h2 : str_starts_with "minor" "minor" = true := by decide
      simp [h1, h2]

/-- Witness for C4: an untagged range with a breaking segment yields a
major bump from 0.0.0. -/
theorem c4_default_bump_witness :
    get_name "a" "b" "v" true (fun _ => none) (fun _ => none) none
      = some ("a", "v1.0.0") := by
  have h := c4_default_bump "a" "b" "v" true (fun _ => none) (fun _ => none)
    ⟨0, 0, 0, "", ""⟩ rfl rfl
  exact h.trans rfl

/-- C10 (confirmed): the tag filter retains the prefixless tag "1.0.0"
and the "ver"-prefixed tag "ver1.0.0"; with the configured prefix "v",
get_name on a segment whose older boundary carries either tag hits the
strip_prefix/parse unwrap panic (modelled as none) instead of returning
a name pair — the error branch is reachable. -/
theorem c10_panic_reachable :
    list_tags ["1.0.0"] = ["1.0.0"]
    ∧ list_tags ["ver1.0.0"] = ["ver1.0.0"]
    ∧ get_name "cafe" "beef" "v" false (fun _ => none)
        (fun x => if x = "cafe" then some "1.0.0" else none) none = none
    ∧ get_name "cafe" "beef" "v" false (fun _ => none)
        (fun x => if x = "cafe" then some "ver1.0.0" else none) none = none :=
  ⟨by decide, by decide, by decide, by decide⟩

theorem str_append_left_cancel (a b c : String) (h : a ++ b = a ++ c) :
    b = c := by
  apply String.ext
  have hd := congrArg String.data h
  rw [String.data_append, String.data_append] at hd
  exact List.append_cancel_left hd

/-- The attribution accumulator factors out. -/
theorem build_by_go_append : ∀ (l : List Author) (len i : Nat) (acc : String),
    build_by_go l len i acc = acc ++ build_by_go l len i "" := by
  intro l
  induction l with
  | nil =>
    intro len i acc
    exact (str_append_empty acc).symm
  | cons a rest ih =>
    intro len i acc
    show build_by_go rest len (i + 1) (acc ++ by_piece len i a.get_display)
      = acc ++ build_by_go rest len (i + 1) ("" ++ by_piece len i a.get_display)
    rw [ih len (i + 1) (acc ++ by_piece len i a.get_display),
        ih len (i + 1) ("" ++ by_piece len i a.get_display),
        str_empty_append, str_append_assoc]

/-- The attribution pieces from position one onward form the tail
format. -/
theorem build_by_go_tail : ∀ (l : List Author) (i len : Nat),
    i + l.length = len → 1 ≤ i →
    build_by_go l len i "" = tail_fmt (l.map Author.get_display) := by
  intro l
  induction l with
  | nil =>
    intro i len _ _
    rfl
  | cons a rest ih =>
    intro i len hlen hi
    have hstep : build_by_go (a :: rest) len i ""
        = by_piece len i a.get_display ++ build_by_go rest len (i + 1) "" := by
      show build_by_go rest len (i + 1) ("" ++ by_piece len i a.get_display)
        = by_piece len i a.get_display ++ build_by_go rest len (i + 1) ""
      rw [build_by_go_append rest len (i + 1)
            ("" ++ by_piece len i a.get_display), str_empty_append]
    rw [hstep]
    cases rest with
    | nil =>
      have hlen1 : i + 1 = len := by
        simpa using hlen
      unfold by_piece
      rw [if_neg (by omega : ¬ i = 0), if_neg (by omega : ¬ len = 1),
          if_pos (by omega : i = len - 1)]
      show ("and " ++ a.get_display) ++ "" = tail_fmt [a.get_display]
      rw [str_append_empty]
      rfl
    | cons b rest2 =>
      have hlen2 : i + rest2.length + 2 = len := by
        simp only [List.length_cons] at hlen
        omega
      rw [ih (i + 1) len (by simp only [List.length_cons]; omega) (by omega)]
      cases rest2 with
      | nil =>
        have hlen3 : i + 2 = len := by
          simpa using hlen2
        unfold by_piece
        rw [if_neg (by omega : ¬ i = 0), if_neg (by omega : ¬ len = 1),
            if_neg (by omega : ¬ i = len - 1),
            if_pos (by omega : i = len - 2)]
        rfl
      | cons c rest3 =>
        have hlen4 : i + rest3.length + 3 = len := by
          simp only [List.length_cons] at hlen2
          omega
        unfold by_piece
        rw [if_neg (by omega : ¬ i = 0), if_neg (by omega : ¬ len = 1),
            if_neg (by omega : ¬ i = len - 1),
            if_neg (by omega : ¬ i = len - 2)]
        rfl

/-- tail_fmt coincides with the and_join format on nonempty lists. -/
theorem tail_fmt_eq_and_join : ∀ (ds : List String), ds ≠ [] →
    tail_fmt ds = and_join ds := by
  intro ds
  induction ds with
  | nil =>
    intro h
    exact absurd rfl h
  | cons d rest ih =>
    intro _
    cases rest with
    | nil => rfl
    | cons b rest2 =>
      cases rest2 with
      | nil =>
        show (d ++ " ") ++ ("and " ++ b) = d ++ " and " ++ b
        apply String.ext
        simp only [String.data_append, List.append_assoc]
        have hm : ([' '] : List Char) ++ ['a', 'n', 'd', ' ']
            = [' ', 'a', 'n', 'd', ' '] := by decide
        rw [← hm, List.append_assoc]
      | cons c rest3 =>
        show (d ++ ", ") ++ tail_fmt (b :: c :: rest3)
          = d ++ ", " ++ and_join (b :: c :: rest3)
        rw [ih (by simp)]

/-- C8 (amended): the attribution clause is "by X" for one author,
"by X and Y" for two, and for three or more a comma-separated list with
the final pair joined by " and " and no comma before the "and"
("by X, Y and Z"), each author displayed as the at-prefixed handle when
known and the plain name otherwise. -/
theorem c8_attribution (authors : List Author) :
    build_by authors = by_format (authors.map Author.get_display) := by
  cases authors with
  | nil => rfl
  | cons a rest =>
    cases rest with
    | nil => rfl
    | cons b rest2 =>
      have hstep : build_by (a :: b :: rest2)
          = by_piece (a :: b :: rest2).length 0 a.get_display
            ++ build_by_go (b :: rest2) (a :: b :: rest2).length 1 "" := by
        show build_by_go (b :: rest2) (a :: b :: rest2).length 1
            ("" ++ by_piece (a :: b :: rest2).length 0 a.get_display) = _
        rw [build_by_go_append (b :: rest2) (a :: b :: rest2).length 1
              ("" ++ by_piece (a :: b :: rest2).length 0 a.get_display),
            str_empty_append]
      rw [hstep,
          build_by_go_tail (b :: rest2) 1 (a :: b :: rest2).length
            (by simp only [List.length_cons]; omega) (by omega),
          tail_fmt_eq_and_join ((b :: rest2).map Author.get_display) (by simp)]
      cases rest2 with
      | nil =>
        unfold by_piece
        rw [if_pos rfl, if_neg (by simp : ¬ ([a, b] : List Author).length = 1),
            if_neg (by simp : ¬ 0 = ([a, b] : List Author).length - 1),
            if_pos (by simp : 0 = ([a, b] : List Author).length - 2)]
        show ("by " ++ (a.get_display ++ " ")) ++ ("and " ++ b.get_display)
          = "by " ++ (a.get_display ++ " and " ++ b.get_display)
        apply String.ext
        simp only [String.data_append, List.append_assoc]
        have hm : ([' '] : List Char) ++ ['a', 'n', 'd', ' ']
            = [' ', 'a', 'n', 'd', ' '] := by decide
        rw [← hm, List.append_assoc]
      | cons c rest3 =>
        unfold by_piece
        rw [if_pos rfl,
            if_neg (by simp only [List.length_cons]; omega :
              ¬ (a :: b :: c :: rest3).length = 1),
            if_neg (by simp only [List.length_cons]; omega :
              ¬ 0 = (a :: b :: c :: rest3).length - 1),
            if_neg (by simp only [List.length_cons]; omega :
              ¬ 0 = (a :: b :: c :: rest3).length - 2)]
        show ("by " ++ (a.get_display ++ ", "))
            ++ and_join ((b :: c :: rest3).map Author.get_display)
          = "by " ++ (a.get_display ++ ", "
              ++ and_join ((b :: c :: rest3).map Author.get_display))
        rw [str_append_assoc]

/-- C8 counterexample: for three authors the rendered clause is
"by X, Y and Z", with no comma before the "and", not "by X, Y, and Z"
as the claim states. -/
theorem c8_counterexample :
    build_by [⟨"X", "x@m", ""⟩, ⟨"Y", "y@m", ""⟩, ⟨"Z", "z@m", ""⟩]
      = "by X, Y and Z"
    ∧ ("by X, Y and Z" : String) ≠ "by X, Y, and Z" :=
  ⟨by decide, by decide⟩

/-- Bucketing a commit grows the total record count by exactly one. -/
theorem total_commits_bucket_insert :
    ∀ (m : List (String × List Commit)) (ty : String) (c : Commit),
      total_commits (bucket_insert m ty c) = total_commits m + 1 := by
  intro m
  induction m with
  | nil =>
    intro ty c
    rfl
  | cons p rest ih =>
    intro ty c
    show total_commits
        (if p.1 = ty then (p.1, p.2 ++ [c]) :: rest
         else p :: bucket_insert rest ty c) = total_commits (p :: rest) + 1
    by_cases hp : p.1 = ty
    · rw [if_pos hp]
      simp only [total_commits, List.map_cons, List.sum_cons,
        List.length_append, List.length_singleton]
      omega
    · rw [if_neg hp]
      simp only [total_commits, List.map_cons, List.sum_cons] at ih ⊢
      rw [ih ty c]
      omega

/-- C6 (confirmed): a commit whose subject has no match of the
classification pattern is silently excluded — it contributes no Commit
record and leaves the unit unchanged (only the login map advances) while
traversal of the remaining commits continues — and only such commits
fail: a matching subject adds exactly one record to the buckets. -/
theorem c6_classification_mismatch (mtl : String → Option String)
    (u : UnitState) (rc : GhCommit) (rest : List GhCommit) :
    (parse_first_line (first_line rc.message) = none →
      (process_gh_commit (mtl, u) rc).2 = u
      ∧ process_gh_commits (rc :: rest) (mtl, u)
          = process_gh_commits rest (record_mails mtl rc, u))
    ∧ (∀ e sc d ty br,
        parse_first_line (first_line rc.message) = some (e, sc, d, ty, br) →
        total_commits (process_gh_commit (mtl, u) rc).2.commit_map
          = total_commits u.commit_map + 1) := by
  constructor
  · intro h
    constructor
    · simp only [process_gh_commit, h]
    · show process_gh_commits rest (process_gh_commit (mtl, u) rc) = _
      simp only [process_gh_commit, h]
  · intro e sc d ty br h
    simp only [process_gh_commit, h]
    exact total_commits_bucket_insert u.commit_map ty _

/-- Witness for C6: the subject "oops I forgot the prefix" fails
classification and the unit is unchanged. -/
theorem c6_classification_mismatch_witness :
    (process_gh_commit ((fun _ => none), ⟨false, []⟩)
        ⟨"s", "N", "n@x", "", "c@x", "", "oops I forgot the prefix"⟩).2
      = ⟨false, []⟩ :=
  ((c6_classification_mismatch (fun _ => none) ⟨false, []⟩
      ⟨"s", "N", "n@x", "", "c@x", "", "oops I forgot the prefix"⟩ []).1
    (by decide)).1

/-- Every entry of an insert_author step is either preexisting or a new
entry keyed by its author's mail with the username looked up in the
login map. -/
theorem insert_author_origin (mtl : String → Option String)
    (contr : List (String × Author)) (a : Author) (p : String × Author)
    (hp : p ∈ insert_author mtl contr a) :
    p ∈ contr ∨ (p.1 = p.2.mail ∧ p.2.username = (mtl p.1).getD "") := by
  unfold insert_author at hp
  split at hp
  · exact Or.inl hp
  · rcases List.mem_append.mp hp with h | h
    · exact Or.inl h
    · right
      rcases List.mem_singleton.mp h with rfl
      exact ⟨rfl, rfl⟩

/-- insert_author preserves key uniqueness. -/
theorem insert_author_nodup (mtl : String → Option String)
    (contr : List (String × Author)) (a : Author)
    (h : (contr.map Prod.fst).Nodup) :
    ((insert_author mtl contr a).map Prod.fst).Nodup := by
  unfold insert_author
  split
  · exact h
  · rename_i hany
    rw [List.map_append]
    simp only [List.map_cons, List.map_nil]
    refine List.Nodup.append h (List.nodup_singleton _) ?_
    intro x hx hx2
    rcases List.mem_singleton.mp hx2 with rfl
    rcases List.mem_map.mp hx with ⟨q, hq, hq1⟩
    exact hany (List.any_eq_true.mpr ⟨q, hq, by simp [hq1]⟩)

/-- The keys after insert_author are the old keys plus the author's
mail. -/
theorem insert_author_keys (mtl : String → Option String)
    (contr : List (String × Author)) (a : Author) (mail : String) :
    mail ∈ (insert_author mtl contr a).map Prod.fst
      ↔ mail ∈ contr.map Prod.fst ∨ mail = a.mail := by
  unfold insert_author
  split
  · rename_i hany
    rcases List.any_eq_true.mp hany with ⟨q, hq, hq1⟩
    constructor
    · exact fun h => Or.inl h
    · rintro (h | rfl)
      · exact h
      · exact List.mem_map.mpr ⟨q, hq, by simpa using hq1⟩
  · rw [List.map_append]
    simp [List.mem_append]

/-- The author fold: origin of entries. -/
theorem fold_authors_origin (mtl : String → Option String) :
    ∀ (as2 : List Author) (contr : List (String × Author))
      (p : String × Author),
      p ∈ as2.foldl (insert_author mtl) contr →
      p ∈ contr ∨ (p.1 = p.2.mail ∧ p.2.username = (mtl p.1).getD "") := by
  intro as2
  induction as2 with
  | nil =>
    intro contr p hp
    exact Or.inl hp
  | cons a rest ih =>
    intro contr p hp
    rcases ih (insert_author mtl contr a) p hp with h | h
    · exact insert_author_origin mtl contr a p h
    · exact Or.inr h

/-- The author fold preserves key uniqueness. -/
theorem fold_authors_nodup (mtl : String → Option String) :
    ∀ (as2 : List Author) (contr : List (String × Author)),
      (contr.map Prod.fst).Nodup →
      ((as2.foldl (insert_author mtl) contr).map Prod.fst).Nodup := by
  intro as2
  induction as2 with
  | nil =>
    intro contr h
    exact h
  | cons a rest ih =>
    intro contr h
    exact ih (insert_author mtl contr a) (insert_author_nodup mtl contr a h)

/-- The author fold's keys are the old keys plus the authors' mails. -/
theorem fold_authors_keys (mtl : String → Option String) :
    ∀ (as2 : List Author) (contr : List (String × Author)) (mail : String),
      mail ∈ (as2.foldl (insert_author mtl) contr).map Prod.fst
        ↔ mail ∈ contr.map Prod.fst ∨ ∃ a ∈ as2, a.mail = mail := by
  intro as2
  induction as2 with
  | nil =>
    intro contr mail
    simp
  | cons a rest ih =>
    intro contr mail
    rw [List.foldl_cons, ih (insert_author mtl contr a) mail,
        insert_author_keys mtl contr a mail]
    constructor
    · rintro ((h | rfl) | ⟨b, hb, rfl⟩)
      · exact Or.inl h
      · exact Or.inr ⟨a, List.mem_cons_self a rest, rfl⟩
      · exact Or.inr ⟨b, List.mem_cons_of_mem a hb, rfl⟩
    · rintro (h | ⟨b, hb, rfl⟩)
      · exact Or.inl (Or.inl h)
      · rcases List.mem_cons.mp hb with rfl | hb2
        · exact Or.inl (Or.inr rfl)
        · exact Or.inr ⟨b, hb2, rfl⟩

/-- The commit fold: origin of entries. -/
theorem fold_commits_origin (mtl : String → Option String) :
    ∀ (cs : List Commit) (contr : List (String × Author))
      (p : String × Author),
      p ∈ cs.foldl (fun contr c => c.authors.foldl (insert_author mtl) contr)
            contr →
      p ∈ contr ∨ (p.1 = p.2.mail ∧ p.2.username = (mtl p.1).getD "") := by
  intro cs
  induction cs with
  | nil =>
    intro contr p hp
    exact Or.inl hp
  | cons c rest ih =>
    intro contr p hp
    rcases ih _ p hp with h | h
    · exact fold_authors_origin mtl c.authors contr p h
    · exact Or.inr h

/-- The commit fold preserves key uniqueness. -/
theorem fold_commits_nodup (mtl : String → Option String) :
    ∀ (cs : List Commit) (contr : List (String × Author)),
      (contr.map Prod.fst).Nodup →
      ((cs.foldl (fun contr c => c.authors.foldl (insert_author mtl) contr)
          contr).map Prod.fst).Nodup := by
  intro cs
  induction cs with
  | nil =>
    intro contr h
    exact h
  | cons c rest ih =>
    intro contr h
    exact ih _ (fold_authors_nodup mtl c.authors contr h)

/-- The commit fold's keys are the old keys plus the commits' author
mails. -/
theorem fold_commits_keys (mtl : String → Option String) :
    ∀ (cs : List Commit) (contr : List (String × Author)) (mail : String),
      mail ∈ (cs.foldl
          (fun contr c => c.authors.foldl (insert_author mtl) contr)
          contr).map Prod.fst
        ↔ mail ∈ contr.map Prod.fst
          ∨ ∃ c ∈ cs, ∃ a ∈ c.authors, a.mail = mail := by
  intro cs
  induction cs with
  | nil =>
    intro contr mail
    simp
  | cons c rest ih =>
    intro contr mail
    rw [List.foldl_cons, ih _ mail, fold_authors_keys mtl c.authors contr mail]
    constructor
    · rintro ((h | ⟨a, ha, rfl⟩) | ⟨c2, hc2, h2⟩)
      · exact Or.inl h
      · exact Or.inr ⟨c, List.mem_cons_self c rest, a, ha, rfl⟩
      · exact Or.inr ⟨c2, List.mem_cons_of_mem c hc2, h2⟩
    · rintro (h | ⟨c2, hc2, a, ha, rfl⟩)
      · exact Or.inl (Or.inl h)
      · rcases List.mem_cons.mp hc2 with rfl | hc3
        · exact Or.inl (Or.inr ⟨a, ha, rfl⟩)
        · exact Or.inr ⟨c2, hc3, a, ha, rfl⟩

/-- C9 (corrected statement): push_changelog_unit produces at most one
contributor entry per mail — exactly one for each mail occurring on a
bucketed commit's author list — and every produced entry's username is
whatever mail_to_login holds for that mail at summary time (empty when
absent); mail_to_login itself is last-write-wins: the login recorded by
the final commit for a mail overwrites any earlier one, so the surviving
handle depends on processing order. -/
theorem c9_contributors :
    (∀ (commit_map : List (String × List Commit))
       (mtl : String → Option String),
      ((push_contributors commit_map mtl []).map Prod.fst).Nodup
      ∧ (∀ p ∈ push_contributors commit_map mtl [],
          p.2.username = (mtl p.1).getD "")
      ∧ (∀ mail, mail ∈ (push_contributors commit_map mtl []).map Prod.fst
          ↔ ∃ b ∈ commit_map, ∃ c ∈ b.2, ∃ a ∈ c.authors, a.mail = mail))
    ∧ (∀ (mtl : String → Option String) (rcs : List GhCommit)
        (rc : GhCommit),
        record_logins mtl (rcs ++ [rc]) rc.author_mail
          = some rc.author_login) := by
  constructor
  · intro commit_map mtl
    have origin : ∀ (bs : List (String × List Commit))
        (contr : List (String × Author)) (p : String × Author),
        p ∈ push_contributors bs mtl contr →
        p ∈ contr ∨ (p.1 = p.2.mail ∧ p.2.username = (mtl p.1).getD "") := by
      intro bs
      induction bs with
      | nil =>
        intro contr p hp
        exact Or.inl hp
      | cons b rest ih =>
        intro contr p hp
        rcases ih _ p hp with h | h
        · exact fold_commits_origin mtl b.2 contr p h
        · exact Or.inr h
    have nodup : ∀ (bs : List (String × List Commit))
        (contr : List (String × Author)),
        (contr.map Prod.fst).Nodup →
        ((push_contributors bs mtl contr).map Prod.fst).Nodup := by
      intro bs
      induction bs with
      | nil =>
        intro contr h
        exact h
      | cons b rest ih =>
        intro contr h
        exact ih _ (fold_commits_nodup mtl b.2 contr h)
    have keys : ∀ (bs : List (String × List Commit))
        (contr : List (String × Author)) (mail : String),
        mail ∈ (push_contributors bs mtl contr).map Prod.fst
          ↔ mail ∈ contr.map Prod.fst
            ∨ ∃ b ∈ bs, ∃ c ∈ b.2, ∃ a ∈ c.authors, a.mail = mail := by
      intro bs
      induction bs with
      | nil =>
        intro contr mail
        simp [push_contributors]
      | cons b rest ih =>
        intro contr mail
        show mail ∈ (push_contributors rest mtl _).map Prod.fst ↔ _
        rw [ih _ mail, fold_commits_keys mtl b.2 contr mail]
        constructor
        · rintro ((h | ⟨c, hc, a, ha, rfl⟩) | ⟨b2, hb2, h2⟩)
          · exact Or.inl h
          · exact Or.inr ⟨b, List.mem_cons_self b rest, c, hc, a, ha, rfl⟩
          · exact Or.inr ⟨b2, List.mem_cons_of_mem b hb2, h2⟩
        · rintro (h | ⟨b2, hb2, c, hc, a, ha, rfl⟩)
          · exact Or.inl (Or.inl h)
          · rcases List.mem_cons.mp hb2 with rfl | hb3
            · exact Or.inl (Or.inr ⟨c, hc, a, ha, rfl⟩)
            · exact Or.inr ⟨b2, hb3, c, hc, a, ha, rfl⟩
    refine ⟨nodup commit_map [] (by simp), ?_, ?_⟩
    · intro p hp
      rcases origin commit_map [] p hp with h | h
      · exact absurd h (List.not_mem_nil p)
      · exact h.2
    · intro mail
      rw [keys commit_map [] mail]
      simp
  · intro mtl rcs rc
    show (rcs ++ [rc]).foldl record_mails mtl rc.author_mail = _
    rw [List.foldl_append]
    simp [record_mails, insertMap]

/-- Witness for C9: the username of the produced entry is the login map
value, applied at a concrete one-bucket map. -/
theorem c9_contributors_witness :
    ("a@x",
      ({ name := "Alice", mail := "a@x", username := "" } : Author)).2.username
      = (((fun m => if m = "a@x" then some "" else none) : String →
          Option String) "a@x").getD "" :=
  (c9_contributors.1
      [("feat", [⟨"s1", "feat", "", "one", false,
        [⟨"Alice", "a@x", "alice"⟩]⟩])]
      (fun m => if m = "a@x" then some "" else none)).2.1
    ("a@x", ⟨"Alice", "a@x", ""⟩) (by decide)

/-- C9 counterexample: two same-mail commits, the resolvable one
processed first: the recorded login is overwritten by the empty one, so
the single contributor entry carries the empty handle, not the non-empty
one the claim requires. -/
theorem c9_counterexample :
    (let st := process_gh_commits
        [⟨"s1", "Alice", "a@x", "alice", "c@x", "", "feat: one"⟩,
         ⟨"s2", "Alice", "a@x", "", "c@x", "", "feat: two"⟩]
        ((fun _ => none), ⟨false, []⟩)
     push_contributors st.2.commit_map st.1 [])
      = [("a@x", ⟨"Alice", "a@x", ""⟩)]
    ∧ ("" : String) ≠ "alice" :=
  ⟨by decide, by decide⟩

/-- The section lines are the joined renderings of the unskipped
commits. -/
theorem section_lines_eq (baseurl : String) (i : Nat) (cs : List Commit) :
    section_lines baseurl i cs
      = String.join ((cs.filter (fun c => !skip_commit i c)).map
          (commit_line baseurl)) := by
  unfold section_lines
  rw [foldl_cond_append_join (commit_line baseurl) (skip_commit i) cs "",
      str_empty_append]

/-- At index 0 the unskipped commits are exactly the breaking ones. -/
theorem skip_zero_filter :
    (fun c : Commit => !skip_commit 0 c) = fun c : Commit => c.is_breaking := by
  funext c
  cases hb : c.is_breaking <;> simp [skip_commit, hb]

/-- At index 1 the unskipped commits are exactly the non-breaking
ones. -/
theorem skip_one_filter :
    (fun c : Commit => !skip_commit 1 c)
      = fun c : Commit => !c.is_breaking := by
  funext c
  cases hb : c.is_breaking <;> simp [skip_commit, hb]

/-- From index 2 on, no commit of the bucket is skipped. -/
theorem skip_ge_two_filter (i : Nat) (h : 2 ≤ i) :
    (fun c : Commit => !skip_commit i c) = fun _ : Commit => true := by
  funext c
  have h0 : (i == 0) = false := by
    simp only [beq_eq_false_iff_ne, ne_eq]
    omega
  have h1 : (i == 1) = false := by
    simp only [beq_eq_false_iff_ne, ne_eq]
    omega
  simp [skip_commit, h0, h1]

/-- An emitted section block is never the empty string. -/
theorem section_header_ne_empty (nm s : String) :
    "\n### " ++ nm ++ "\n\n" ++ s ≠ "" := by
  intro h
  have hd := congrArg String.data h
  simp only [String.data_append] at hd
  rcases List.append_eq_nil.mp hd with ⟨h1, _⟩
  rcases List.append_eq_nil.mp h1 with ⟨h2, _⟩
  rcases List.append_eq_nil.mp h2 with ⟨h3, _⟩
  exact absurd h3 (by decide)

/-- The Breaking Changes block is empty exactly when the feat bucket
has no breaking commit. -/
theorem section_block_zero_iff (baseurl : String)
    (cmap : String → Option (List Commit)) :
    section_block baseurl cmap 0 = "" ↔ qualifying_commits cmap 0 = [] := by
  unfold section_block qualifying_commits
  cases hm : cmap (changelog_types.getD 0 "") with
  | none => simp
  | some cs =>
    cases cs with
    | nil => simp
    | cons c cs2 =>
      dsimp only
      rw [if_neg (by simp : ¬ (c :: cs2).isEmpty = true)]
      by_cases hc : (c :: cs2).countP (fun x => x.is_breaking) = 0
      · rw [if_pos ⟨rfl, hc⟩]
        simp only [Option.getD_some, if_pos rfl]
        constructor
        · intro _
          exact List.filter_eq_nil_iff.mpr
            (by simpa using List.countP_eq_zero.mp hc)
        · intro _
          trivial
      · rw [if_neg (fun hand => hc hand.2),
            if_neg (by omega : ¬ ((0 : Nat) = 1 ∧
              (c :: cs2).countP (fun x => !x.is_breaking) = 0))]
        simp only [Option.getD_some, if_pos rfl]
        constructor
        · intro hblk
          exact absurd hblk (section_header_ne_empty _ _)
        · intro hfil
          exact absurd (List.countP_eq_zero.mpr
            (by simpa using List.filter_eq_nil_iff.mp hfil)) hc

/-- The Features block is empty exactly when the feat bucket has no
non-breaking commit. -/
theorem section_block_one_iff (baseurl : String)
    (cmap : String → Option (List Commit)) :
    section_block baseurl cmap 1 = "" ↔ qualifying_commits cmap 1 = [] := by
  unfold section_block qualifying_commits
  cases hm : cmap (changelog_types.getD 1 "") with
  | none => simp
  | some cs =>
    cases cs with
    | nil => simp
    | cons c cs2 =>
      dsimp only
      rw [if_neg (by simp : ¬ (c :: cs2).isEmpty = true),
          if_neg (by omega : ¬ ((1 : Nat) = 0 ∧
            (c :: cs2).countP (fun x => x.is_breaking) = 0))]
      by_cases hc : (c :: cs2).countP (fun x => !x.is_breaking) = 0
      · rw [if_pos ⟨rfl, hc⟩]
        simp only [Option.getD_some, if_neg (by omega : ¬ (1 : Nat) = 0),
          if_pos rfl]
        constructor
        · intro _
          exact List.filter_eq_nil_iff.mpr
            (by simpa using List.countP_eq_zero.mp hc)
        · intro _
          trivial
      · rw [if_neg (fun hand => hc hand.2)]
        simp only [Option.getD_some, if_neg (by omega : ¬ (1 : Nat) = 0),
          if_pos rfl]
        constructor
        · intro hblk
          exact absurd hblk (section_header_ne_empty _ _)
        · intro hfil
          exact absurd (List.countP_eq_zero.mpr
            (by simpa using List.filter_eq_nil_iff.mp hfil)) hc

/-- From index 2 on a block is empty exactly when its bucket is missing
or empty. -/
theorem section_block_ge_two_iff (baseurl : String)
    (cmap : String → Option (List Commit)) (i : Nat) (h2 : 2 ≤ i) :
    section_block baseurl cmap i = "" ↔ qualifying_commits cmap i = [] := by
  unfold section_block qualifying_commits
  cases hm : cmap (changelog_types.getD i "") with
  | none =>
    simp only [Option.getD_none, List.filter_nil]
    rw [if_neg (by omega : ¬ i = 0), if_neg (by omega : ¬ i = 1)]
    simp
  | some cs =>
    rw [if_neg (by omega : ¬ i = 0), if_neg (by omega : ¬ i = 1)]
    cases cs with
    | nil => simp
    | cons c cs2 =>
      dsimp only
      rw [if_neg (by simp : ¬ (c :: cs2).isEmpty = true),
          if_neg (fun hand => by omega : ¬ (i = 0 ∧
            (c :: cs2).countP (fun x => x.is_breaking) = 0)),
          if_neg (fun hand => by omega : ¬ (i = 1 ∧
            (c :: cs2).countP (fun x => !x.is_breaking) = 0))]
      simp only [Option.getD_some]
      constructor
      · intro hblk
        exact absurd hblk (section_header_ne_empty _ _)
      · intro hfil
        exact absurd hfil (by simp)

/-- C3 (amended): the sections are emitted in the fixed priority order
(indices 0 through 12: breaking changes, features, fixes, docs, style,
refactor, perf, test, build, ci, chore, revert, other); the breaking and
features sections read only the feat bucket — the breaking section
contains exactly its breaking commits and the features section exactly
its non-breaking ones, so a breaking fix commit appears in the fixes
section, not under Breaking Changes; every other section contains its
whole bucket; and a section is emitted only when it has at least one
qualifying commit. -/
theorem c3_sections (baseurl fn tn : String)
    (cmap : String → Option (List Commit))
    (contrib : List (String × Author)) :
    (get_changelog_string baseurl fn tn cmap contrib
      = changelog_header baseurl fn tn
        ++ String.join ((List.range 13).map (section_block baseurl cmap))
        ++ contributors_block contrib)
    ∧ (∀ cmap2 : String → Option (List Commit), cmap2 "feat" = cmap "feat" →
        section_block baseurl cmap2 0 = section_block baseurl cmap 0
        ∧ section_block baseurl cmap2 1 = section_block baseurl cmap 1)
    ∧ (∀ i, section_block baseurl cmap i = ""
        ↔ qualifying_commits cmap i = [])
    ∧ (∀ cs, section_lines baseurl 0 cs
        = String.join ((cs.filter (fun c => c.is_breaking)).map
            (commit_line baseurl)))
    ∧ (∀ cs, section_lines baseurl 1 cs
        = String.join ((cs.filter (fun c => !c.is_breaking)).map
            (commit_line baseurl)))
    ∧ (∀ i cs, 2 ≤ i → section_lines baseurl i cs
        = String.join (cs.map (commit_line baseurl))) := by
  refine ⟨?_, ?_, ?_, ?_, ?_, ?_⟩
  · unfold get_changelog_string
    rw [foldl_append_join (section_block baseurl cmap)
          (List.range changelog_types.length)
          (changelog_header baseurl fn tn),
        show changelog_types.length = 13 from rfl]
  · intro cmap2 h
    constructor
    · unfold section_block
      rw [show changelog_types.getD 0 "" = "feat" from rfl, h]
    · unfold section_block
      rw [show changelog_types.getD 1 "" = "feat" from rfl, h]
  · intro i
    cases i with
    | zero => exact section_block_zero_iff baseurl cmap
    | succ j =>
      cases j with
      | zero => exact section_block_one_iff baseurl cmap
      | succ n =>
        exact section_block_ge_two_iff baseurl cmap (n + 2) (by omega)
  · intro cs
    rw [section_lines_eq, skip_zero_filter]
  · intro cs
    rw [section_lines_eq, skip_one_filter]
  · intro i cs h2
    rw [section_lines_eq, skip_ge_two_filter i h2, List.filter_true]

/-- Witness for C3: the sections of a bucket past index 1 render all
their commits; applied at index 2 with an empty bucket. -/
theorem c3_sections_witness :
    section_lines "" 2 [] = String.join (([] : List Commit).map
        (commit_line "")) :=
  (c3_sections "" "a" "b" (fun _ => none) []).2.2.2.2.2 2 [] (by omega)

/-- C3 counterexample: a breaking fix commit yields no Breaking Changes
section at all — it is rendered under Bug Fixes — contradicting the
claim that breaking commits of any bucket appear under Breaking
Changes. -/
theorem c3_counterexample :
    substr_in "Breaking".toList
        (get_changelog_string "" "v1.0.0" "v1.1.0"
          (fun ty => if ty = "fix" then
              some [⟨"abcdef1", "fix", "", "change Y", true,
                [⟨"X", "x@x", ""⟩]⟩]
            else none) []).toList = false
    ∧ substr_in "Bug Fixes".toList
        (get_changelog_string "" "v1.0.0" "v1.1.0"
          (fun ty => if ty = "fix" then
              some [⟨"abcdef1", "fix", "", "change Y", true,
                [⟨"X", "x@x", ""⟩]⟩]
            else none) []).toList = true :=
  ⟨by decide, by decide⟩

end Tgit
